import Mathlib

/-!
Verification of the DeVault CashAddr codec and signature-cache subsystems.

The repository snapshot under verification ships the headers and the test
suites of these subsystems (`cashaddrenc.h`, `catch_tests/cashaddrenc_tests.cpp`,
`test/sigcache_tests.cpp`); the translation below embeds the codec and the
cache following the specification's algorithm descriptions, with every
behavioural choice pinned by the in-repository test files.
-/

set_option maxRecDepth 40000

namespace DeVault

/-! ### Bit-stream utilities

Modelled from the spec: the 8-bit ↔ 5-bit bit-repacking (`ConvertBits` in the
missing `cashaddr.cpp` / `cashaddrenc.cpp`), described in §4.1 as repacking
"most-significant-bit first, zero-padded on the last group". -/

/-- Most-significant-bit-first list of the `w` low bits of `n`. -/
def natToBits : Nat → Nat → List Bool
  | 0, _ => []
  | w + 1, n => natToBits w (n / 2) ++ [n % 2 == 1]

/-- Read back a most-significant-bit-first bit list as a number. -/
def bitsToNat (bs : List Bool) : Nat :=
  bs.foldl (fun a b => 2 * a + (if b then 1 else 0)) 0

/-- Fuel-driven worker for `chunks`; the fuel only bounds the recursion
depth and is irrelevant once it covers the list length. -/
def chunksF (w : Nat) : Nat → List Bool → List (List Bool)
  | 0, _ => []
  | _ + 1, [] => []
  | fuel + 1, b :: bs =>
    (b :: bs).take (w + 1) :: chunksF w fuel ((b :: bs).drop (w + 1))

/-- Split a bit list into consecutive blocks of `w + 1` bits (last one may be
shorter). -/
def chunks (w : Nat) (l : List Bool) : List (List Bool) :=
  chunksF w l.length l

/-- Repack 8-bit bytes into 5-bit groups, zero-padding the final group
(`ConvertBits<8, 5, true>`). -/
def convertBits8to5 (bytes : List Nat) : List Nat :=
  let bits := bytes.flatMap (natToBits 8)
  let pad := (5 - bits.length % 5) % 5
  (chunks 4 (bits ++ List.replicate pad false)).map bitsToNat

/-- Repack 5-bit groups into 8-bit bytes, rejecting the input if a whole group
would be discarded or if any discarded padding bit is nonzero
(`ConvertBits<5, 8, false>` together with the canonical-padding check). -/
def convertBits5to8 (groups : List Nat) : Option (List Nat) :=
  let bits := groups.flatMap (natToBits 5)
  let extrabits := bits.length % 8
  if 5 ≤ extrabits then none
  else if (bits.drop (bits.length - extrabits)).any (fun b => b) then none
  else some ((chunks 7 (bits.take (bits.length - extrabits))).map bitsToNat)

/-! ### Base-32 checksum codec (`cashaddr`)

Modelled from the spec: `cashaddr.cpp` is not part of the source snapshot.
The 32-character alphabet and the BCH generator constants are the ones forced
by the repository's own concrete test vectors in
`catch_tests/cashaddrenc_tests.cpp` (`test_vectors`, `test_encode_address`). -/

/-- The base-32 alphabet; position defines the numeric value 0–31. -/
def CHARSET : List Char :=
  ['q', 'p', 'z', 'r', 'y', '9', 'x', '8', 'g', 'f', '2', 't', 'v', 'd', 'w', '0',
   's', '3', 'j', 'n', '5', '4', 'k', 'h', 'c', 'e', '6', 'm', 'u', 'a', '7', 'l']

/-- Map a 5-bit value to its alphabet character. -/
def charsetChar (g : Nat) : Char := CHARSET.getD g 'q'

/-- Inverse alphabet lookup; `none` for characters outside the alphabet. -/
def charsetRev (c : Char) : Option Nat := CHARSET.indexOf? c

/-- One step of the 40-bit BCH polymod (linear-feedback) checksum. -/
def polyModStep (c d : Nat) : Nat :=
  let c0 := c >>> 35
  let c1 := ((c &&& 0x07ffffffff) <<< 5) ^^^ d
  let c2 := if c0 &&& 0x01 ≠ 0 then c1 ^^^ 0x98f2bc8e61 else c1
  let c3 := if c0 &&& 0x02 ≠ 0 then c2 ^^^ 0x79b76d99e2 else c2
  let c4 := if c0 &&& 0x04 ≠ 0 then c3 ^^^ 0xf33e5fb3c4 else c3
  let c5 := if c0 &&& 0x08 ≠ 0 then c4 ^^^ 0xae2eabe2a8 else c4
  if c0 &&& 0x10 ≠ 0 then c5 ^^^ 0x1e4f43e470 else c5

/-- The BCH-style 40-bit checksum over a sequence of 5-bit values. -/
def PolyMod (v : List Nat) : Nat := (v.foldl polyModStep 1) ^^^ 1

/-- Prefix contribution to the checksum: each character masked to its lower
5 bits, followed by a zero separator. -/
def expandPfx (pfx : List Char) : List Nat :=
  pfx.map (fun c => c.toNat &&& 0x1f) ++ [0]

/-- The eight 5-bit groups of a 40-bit checksum value, most significant
first. -/
def checksumGroups (m : Nat) : List Nat :=
  [(m >>> 35) &&& 0x1f, (m >>> 30) &&& 0x1f, (m >>> 25) &&& 0x1f,
   (m >>> 20) &&& 0x1f, (m >>> 15) &&& 0x1f, (m >>> 10) &&& 0x1f,
   (m >>> 5) &&& 0x1f, (m >>> 0) &&& 0x1f]

/-- Checksum for a prefix/payload pair: polymod over the expanded prefix, the
payload and eight zero symbols. -/
def createChecksum (pfx : List Char) (payload : List Nat) : List Nat :=
  checksumGroups (PolyMod (expandPfx pfx ++ payload ++ List.replicate 8 0))

/-- Model of `cashaddr::Encode`: prefix, colon, then the base-32 rendering of the 5-bit
payload followed by its checksum. -/
def cashaddrEncode (pfx : List Char) (payload : List Nat) : List Char :=
  pfx ++ ':' :: (payload ++ createChecksum pfx payload).map charsetChar

/-- Uppercase ASCII letter test. -/
def isUpperAZ (c : Char) : Bool := 65 ≤ c.toNat && c.toNat ≤ 90

/-- Lowercase an uppercase ASCII letter, leave everything else alone. -/
def toLowerCh (c : Char) : Char :=
  if isUpperAZ c then Char.ofNat (c.toNat + 32) else c

/-- Split a character list at its last colon, if any. -/
def splitLastColon : List Char → Option (List Char × List Char)
  | [] => none
  | c :: cs =>
    match splitLastColon cs with
    | some (p, q) => some (c :: p, q)
    | none => if c = ':' then some ([], cs) else none

/-- Model of `cashaddr::Decode`, modelled from the spec: split on the last colon (or
use the supplied default prefix), reject mixed case, map the payload back
through the alphabet, require a zero polymod, strip the eight checksum
symbols, and repack 5-bit groups to bytes rejecting nonzero padding. -/
def cashaddrDecode (str : List Char) (defaultPfx : List Char) :
    Option (List Char × List Nat) :=
  if str.any isUpperAZ && str.any (fun c => 97 ≤ c.toNat && c.toNat ≤ 122) then
    none
  else
    let s := str.map toLowerCh
    let pq := match splitLastColon s with
      | some (p, q) => (p, q)
      | none => (defaultPfx, s)
    match pq.2.mapM charsetRev with
    | none => none
    | some values =>
      if values.length < 8 then none
      else if PolyMod (expandPfx pq.1 ++ values) ≠ 0 then none
      else
        match convertBits5to8 (values.take (values.length - 8)) with
        | none => none
        | some bytes => some (pq.1, bytes)

/-! ### Content packer/encoder (`cashaddrenc`)

Modelled from the spec: `cashaddrenc.cpp` is not part of the source snapshot;
the struct layout comes from the in-repository `cashaddrenc.h`, and the
version-byte layout is pinned by `catch_tests/cashaddrenc_tests.cpp`
(`check_type`, `check_size`, `test_vectors`).  Note: the tests force the
reserved bit of the version byte to be its top bit `0x80` — equivalently bit
`0x10` of the leading 5-bit payload group, which is what `check_type` sets —
and force types 0–15 (version bytes without the top bit) to round-trip. -/

/-- The `CashAddrContent` struct from `cashaddrenc.h`: a 5-bit type tag and a hash. -/
structure CashAddrContent where
  type : Nat
  hash : List Nat
deriving DecidableEq

/-- The table mapping the 3-bit size class to the hash length in bytes. -/
def hashSizeTable : Nat → Nat
  | 0 => 20
  | 1 => 24
  | 2 => 28
  | 3 => 32
  | 4 => 40
  | 5 => 48
  | 6 => 56
  | _ => 64

/-- The eight valid hash lengths. -/
def validHashLengths : List Nat := [20, 24, 28, 32, 40, 48, 56, 64]

/-- Size class whose table entry exactly equals `n`, if any. -/
def sizeClassOfLength (n : Nat) : Option Nat :=
  if n = 20 then some 0
  else if n = 24 then some 1
  else if n = 28 then some 2
  else if n = 32 then some 3
  else if n = 40 then some 4
  else if n = 48 then some 5
  else if n = 56 then some 6
  else if n = 64 then some 7
  else none

/-- Model of `PackCashAddrContent`: version byte `(type <<< 3) ||| size_class`
(truncated to 8 bits) followed by the hash, repacked into 5-bit groups;
`none` models the `std::runtime_error` thrown when the hash length matches no
table entry. -/
def PackCashAddrContent (content : CashAddrContent) : Option (List Nat) :=
  match sizeClassOfLength content.hash.length with
  | none => none
  | some sc =>
    some (convertBits8to5 ((((content.type <<< 3) ||| sc) &&& 0xff) :: content.hash))

/-- Model of `EncodeCashAddr(pfx, content)`: pack then base-32 encode. -/
def EncodeCashAddrContent (pfx : List Char) (content : CashAddrContent) :
    Option (List Char) :=
  (PackCashAddrContent content).map (cashaddrEncode pfx)

/-- Model of `DecodeCashAddrContent`: total decode to a content value, returning the
empty content (type 0, empty hash) on prefix mismatch, empty payload, a set
reserved bit, or a hash length that contradicts the version byte's size
class. -/
def DecodeCashAddrContent (addr : List Char) (expectedPfx : List Char) :
    CashAddrContent :=
  match cashaddrDecode addr expectedPfx with
  | none => ⟨0, []⟩
  | some (pfx, payload) =>
    if pfx ≠ expectedPfx then ⟨0, []⟩
    else
      match payload with
      | [] => ⟨0, []⟩
      | version :: hash =>
        if version &&& 0x80 ≠ 0 then ⟨0, []⟩
        else if hash.length = hashSizeTable (version &&& 0x07) then
          ⟨(version >>> 3) &&& 0x1f, hash⟩
        else ⟨0, []⟩

/-- The `CTxDestination` type: tagged union over no-destination, key hash, script
hash. -/
inductive CTxDestination where
  | CNoDestination : CTxDestination
  | CKeyID (hash : List Nat) : CTxDestination
  | CScriptID (hash : List Nat) : CTxDestination
deriving DecidableEq

open CTxDestination

/-- Model of `DecodeCashAddrDestination`: type 0 with a 20-byte hash is a key
destination, type 1 with a 20-byte hash a script destination, anything else
no destination. -/
def DecodeCashAddrDestination (content : CashAddrContent) : CTxDestination :=
  if content.type = 0 ∧ content.hash.length = 20 then CKeyID content.hash
  else if content.type = 1 ∧ content.hash.length = 20 then CScriptID content.hash
  else CNoDestination

/-- Model of `EncodeCashAddr(dst, params)`: dispatch on the destination variant; the
no-destination variant encodes to the empty string. -/
def EncodeCashAddrDst (dst : CTxDestination) (pfx : List Char) :
    Option (List Char) :=
  match dst with
  | CNoDestination => some []
  | CKeyID h => EncodeCashAddrContent pfx ⟨0, h⟩
  | CScriptID h => EncodeCashAddrContent pfx ⟨1, h⟩

/-- Model of `DecodeCashAddr(addr, params)`: decode content under the network prefix,
then map to a destination. -/
def DecodeCashAddr (addr : List Char) (pfx : List Char) : CTxDestination :=
  DecodeCashAddrDestination (DecodeCashAddrContent addr pfx)

/-- Modelled from the spec: the chain-parameter CashAddr prefixes for the
three supported networks (main, testnet, regtest) are distinct short
lowercase identifiers; `chainparams.cpp` is not part of the source snapshot.
The main and testnet strings are pinned by the test vectors. -/
def supportedPfxs : List (List Char) :=
  ["devault".data, "dvtest".data, "dvreg".data]

/-! ### Signature-verification cache

Modelled from the spec: `script/sigcache.cpp` and `script/interpreter.h` are
not part of the source snapshot.  The cache key is a pure function of the
signature bytes, the public key bytes, the sighash and the verification flags
with the invariant flags masked out (spec §3 and §4.3); the embedding keeps
the key as the tuple itself, treating the digest as an opaque injective
fingerprint, and treats the cryptographic `verify(sig, pubkey, hash)`
primitive as an abstract boolean function (spec §1).  The seventeen invariant
flag names are the ones enumerated by `test/sigcache_tests.cpp`
(`TEST_INVARIANT_FLAGS`), which the test requires to match the list in
`sigcache.cpp`; the concrete bit positions are chosen as distinct single bits
(the flag-enum values are not in the snapshot, and only distinctness and
disjointness matter to the properties below). -/

def SCRIPT_VERIFY_P2SH : Nat := 1 <<< 0
def SCRIPT_VERIFY_STRICTENC : Nat := 1 <<< 1
def SCRIPT_VERIFY_DERSIG : Nat := 1 <<< 2
def SCRIPT_VERIFY_LOW_S : Nat := 1 <<< 3
def SCRIPT_VERIFY_NULLDUMMY : Nat := 1 <<< 4
def SCRIPT_VERIFY_SIGPUSHONLY : Nat := 1 <<< 5
def SCRIPT_VERIFY_MINIMALDATA : Nat := 1 <<< 6
def SCRIPT_VERIFY_DISCOURAGE_UPGRADABLE_NOPS : Nat := 1 <<< 7
def SCRIPT_VERIFY_CLEANSTACK : Nat := 1 <<< 8
def SCRIPT_VERIFY_CHECKLOCKTIMEVERIFY : Nat := 1 <<< 9
def SCRIPT_VERIFY_CHECKSEQUENCEVERIFY : Nat := 1 <<< 10
def SCRIPT_VERIFY_MINIMALIF : Nat := 1 <<< 11
def SCRIPT_VERIFY_NULLFAIL : Nat := 1 <<< 12
def SCRIPT_VERIFY_COMPRESSED_PUBKEYTYPE : Nat := 1 <<< 13
def SCRIPT_ENABLE_SIGHASH_FORKID : Nat := 1 <<< 14
def SCRIPT_ENABLE_REPLAY_PROTECTION : Nat := 1 <<< 15
def SCRIPT_VERIFY_CHECKDATASIG_SIGOPS : Nat := 1 <<< 16
def SCRIPT_ENABLE_SCHNORR : Nat := 1 <<< 17

/-- The seventeen invariant flags, as enumerated by the sigcache test. -/
def invariantFlagsList : List Nat :=
  [SCRIPT_VERIFY_P2SH, SCRIPT_VERIFY_STRICTENC, SCRIPT_VERIFY_DERSIG,
   SCRIPT_VERIFY_LOW_S, SCRIPT_VERIFY_NULLDUMMY, SCRIPT_VERIFY_SIGPUSHONLY,
   SCRIPT_VERIFY_MINIMALDATA, SCRIPT_VERIFY_DISCOURAGE_UPGRADABLE_NOPS,
   SCRIPT_VERIFY_CLEANSTACK, SCRIPT_VERIFY_CHECKLOCKTIMEVERIFY,
   SCRIPT_VERIFY_CHECKSEQUENCEVERIFY, SCRIPT_VERIFY_MINIMALIF,
   SCRIPT_VERIFY_NULLFAIL, SCRIPT_VERIFY_COMPRESSED_PUBKEYTYPE,
   SCRIPT_ENABLE_SIGHASH_FORKID, SCRIPT_ENABLE_REPLAY_PROTECTION,
   SCRIPT_VERIFY_CHECKDATASIG_SIGOPS]

/-- The `TEST_INVARIANT_FLAGS` word: bitwise union of the seventeen invariant flags. -/
def TEST_INVARIANT_FLAGS : Nat := invariantFlagsList.foldl (· ||| ·) 0

/-- The `TEST_VARIANT_FLAGS` word: the single flag required to influence the key. -/
def TEST_VARIANT_FLAGS : Nat := SCRIPT_ENABLE_SCHNORR

/-- A cache fingerprint: pure function of signature, pubkey, sighash and the
variant part of the 32-bit flag word. -/
structure SigCacheEntry where
  sig : List Nat
  pubkey : List Nat
  sighash : Nat
  variantFlags : Nat
deriving DecidableEq

/-- Compute the cache key: flags are masked with the 32-bit complement of the
invariant set, so invariant flags cannot influence the key. -/
def computeEntry (sig pubkey : List Nat) (sighash flags : Nat) : SigCacheEntry :=
  ⟨sig, pubkey, sighash, flags &&& (0xffffffff ^^^ TEST_INVARIANT_FLAGS)⟩

/-- The cache store: the set of fingerprints verified so far. -/
abbrev SigCacheState := List SigCacheEntry

/-- Cache-only lookup (`IsCached`): membership of the fingerprint. -/
def isCached (st : SigCacheState) (sig pubkey : List Nat) (sighash flags : Nat) :
    Bool :=
  decide (computeEntry sig pubkey sighash flags ∈ st)

/-- Model of `VerifySignature` with store enabled: cache hit returns true; otherwise
run the cryptographic verification, memoizing only successes. -/
def verifySignatureOp (cryptoVerify : List Nat → List Nat → Nat → Bool)
    (st : SigCacheState) (sig pubkey : List Nat) (sighash flags : Nat) :
    Bool × SigCacheState :=
  let e := computeEntry sig pubkey sighash flags
  if e ∈ st then (true, st)
  else if cryptoVerify sig pubkey sighash then (true, e :: st)
  else (false, st)

/-- An observable cache operation: a cache-only lookup or a full cached
verification. -/
inductive SigCacheOp where
  | lookup (sig pubkey : List Nat) (sighash flags : Nat) : SigCacheOp
  | verify (sig pubkey : List Nat) (sighash flags : Nat) : SigCacheOp

/-- Run a sequence of cache operations, threading the store. -/
def runOps (cryptoVerify : List Nat → List Nat → Nat → Bool)
    (st : SigCacheState) : List SigCacheOp → SigCacheState
  | [] => st
  | SigCacheOp.lookup sig pubkey sighash flags :: rest =>
    let _ := isCached st sig pubkey sighash flags
    runOps cryptoVerify st rest
  | SigCacheOp.verify sig pubkey sighash flags :: rest =>
    runOps cryptoVerify (verifySignatureOp cryptoVerify st sig pubkey sighash flags).2 rest

/-- An operation whose underlying cryptographic verification (if any) fails. -/
def opFails (cryptoVerify : List Nat → List Nat → Nat → Bool) : SigCacheOp → Prop
  | SigCacheOp.lookup _ _ _ _ => True
  | SigCacheOp.verify sig pubkey sighash _ => cryptoVerify sig pubkey sighash = false

/-- A well-formed network identifier: nonempty-or-not, all lowercase ASCII
letters (true of every supported network string). -/
def goodPfx (pfx : List Char) : Prop :=
  ∀ c ∈ pfx, 97 ≤ c.toNat ∧ c.toNat ≤ 122

/-- The 20-byte hash of the repository's concrete test vectors. -/
def testHash20 : List Nat :=
  [0xF5, 0xBF, 0x48, 0xB3, 0x97, 0xDA, 0xE7, 0x0B, 0xE8, 0x2B, 0x3C, 0xCA,
   0x47, 0x93, 0xF8, 0xEB, 0x2B, 0x6C, 0xDA, 0xC9]

/-! ### Theorems -/

/-! #### Bit-stream lemmas -/

theorem length_natToBits (w n : Nat) : (natToBits w n).length = w := by
  induction w generalizing n with
  | zero => rfl
  | succ w ih => simp [natToBits, ih]

theorem bitsToNat_append_bit (bs : List Bool) (b : Bool) :
    bitsToNat (bs ++ [b]) = 2 * bitsToNat bs + (if b then 1 else 0) := by
  simp [bitsToNat, List.foldl_append]

theorem mod_two_pow_succ (n w : Nat) :
    n % 2 ^ (w + 1) = 2 * (n / 2 % 2 ^ w) + n % 2 := by
  have h2 := Nat.div_add_mod (n / 2) (2 ^ w)
  have h6 : n / 2 / 2 ^ w = n / (2 * 2 ^ w) := Nat.div_div_eq_div_mul n 2 (2 ^ w)
  have h7 := Nat.div_add_mod n (2 * 2 ^ w)
  rw [← h6, Nat.mul_assoc] at h7
  have h1 := Nat.div_add_mod n 2
  have h5 : 2 ^ (w + 1) = 2 * 2 ^ w := by
    rw [Nat.pow_succ, Nat.mul_comm]
  rw [h5]
  omega

theorem bitsToNat_natToBits (w n : Nat) :
    bitsToNat (natToBits w n) = n % 2 ^ w := by
  induction w generalizing n with
  | zero => simp [natToBits, bitsToNat, Nat.mod_one]
  | succ w ih =>
    rw [natToBits, bitsToNat_append_bit, ih]
    have hval : (if (n % 2 == 1) then 1 else 0) = n % 2 := by
      rcases Nat.mod_two_eq_zero_or_one n with h | h <;> simp [h]
    rw [hval, mod_two_pow_succ]

theorem natToBits_bitsToNat (c : List Bool) :
    natToBits c.length (bitsToNat c) = c := by
  induction c using List.reverseRecOn with
  | nil => rfl
  | append_singleton xs b ih =>
    rw [bitsToNat_append_bit, List.length_append, List.length_singleton, natToBits]
    have hdiv : (2 * bitsToNat xs + (if b then 1 else 0)) / 2 = bitsToNat xs := by
      cases b <;> simp <;> try omega
    have hmod : ((2 * bitsToNat xs + (if b then 1 else 0)) % 2 == 1) = b := by
      cases b with
      | false =>
        have : (2 * bitsToNat xs + (if false then 1 else 0)) % 2 = 0 := by
          simp
          try omega
        rw [this]; rfl
      | true =>
        have : (2 * bitsToNat xs + (if true then 1 else 0)) % 2 = 1 := by
          simp
          try omega
        rw [this]; rfl
    rw [hdiv, hmod, ih]

theorem natToBits_bitsToNat_of_length (c : List Bool) (w : Nat)
    (h : c.length = w) : natToBits w (bitsToNat c) = c :=
  h ▸ natToBits_bitsToNat c

theorem bitsToNat_lt (c : List Bool) : bitsToNat c < 2 ^ c.length := by
  induction c using List.reverseRecOn with
  | nil => simp [bitsToNat]
  | append_singleton xs b ih =>
    rw [bitsToNat_append_bit, List.length_append, List.length_singleton,
      Nat.pow_succ]
    have : (if b then 1 else 0) ≤ 1 := by cases b <;> simp
    omega

theorem length_flatMap_natToBits (w : Nat) (vs : List Nat) :
    (vs.flatMap (natToBits w)).length = w * vs.length := by
  induction vs with
  | nil => simp
  | cons v rest ih =>
    rw [List.flatMap_cons, List.length_append, length_natToBits, ih,
      List.length_cons]
    ring

theorem chunksF_congr (w : Nat) (f1 : Nat) :
    ∀ (f2 : Nat) (l : List Bool), l.length ≤ f1 → l.length ≤ f2 →
      chunksF w f1 l = chunksF w f2 l := by
  induction f1 with
  | zero =>
    intro f2 l h1 _
    have : l = [] := List.length_eq_zero.mp (Nat.le_zero.mp h1)
    subst this
    cases f2 <;> rfl
  | succ f1 ih =>
    intro f2 l h1 h2
    cases l with
    | nil => cases f2 <;> rfl
    | cons b bs =>
      cases f2 with
      | zero => simp at h2
      | succ f2 =>
        show (b :: bs).take (w + 1) :: chunksF w f1 ((b :: bs).drop (w + 1)) =
          (b :: bs).take (w + 1) :: chunksF w f2 ((b :: bs).drop (w + 1))
        have hlen : ((b :: bs).drop (w + 1)).length ≤ f1 := by
          rw [List.length_drop]
          simp only [List.length_cons] at h1 ⊢
          omega
        have hlen2 : ((b :: bs).drop (w + 1)).length ≤ f2 := by
          rw [List.length_drop]
          simp only [List.length_cons] at h2 ⊢
          omega
        rw [ih f2 _ hlen hlen2]

theorem chunksF_eq_chunks (w fuel : Nat) (l : List Bool) (h : l.length ≤ fuel) :
    chunksF w fuel l = chunks w l :=
  chunksF_congr w fuel l.length l h (Nat.le_refl _)

theorem chunks_append (w : Nat) (xs rest : List Bool) (h : xs.length = w + 1) :
    chunks w (xs ++ rest) = xs :: chunks w rest := by
  cases xs with
  | nil => simp at h
  | cons x xs' =>
    show chunksF w ((x :: xs') ++ rest).length ((x :: xs') ++ rest) = _
    have hlen : ((x :: xs') ++ rest).length = (xs' ++ rest).length + 1 := by
      simp
    rw [hlen]
    show ((x :: xs') ++ rest).take (w + 1) ::
        chunksF w (xs' ++ rest).length (((x :: xs') ++ rest).drop (w + 1)) = _
    rw [List.take_left' h, List.drop_left' h]
    have : rest.length ≤ (xs' ++ rest).length := by
      rw [List.length_append]; omega
    rw [chunksF_eq_chunks w _ rest this]

theorem chunks_mem_length_le (w : Nat) :
    ∀ (fuel : Nat) (l : List Bool), l.length ≤ fuel →
      ∀ c ∈ chunksF w fuel l, c.length ≤ w + 1 := by
  intro fuel
  induction fuel with
  | zero => intro l _ c hc; simp [chunksF] at hc
  | succ fuel ih =>
    intro l hl c hc
    cases l with
    | nil => simp [chunksF] at hc
    | cons b bs =>
      rcases List.mem_cons.mp hc with rfl | hc
      · rw [List.length_take]
        exact Nat.min_le_left _ _
      · refine ih ((b :: bs).drop (w + 1)) ?_ c hc
        rw [List.length_drop]
        simp only [List.length_cons] at hl ⊢
        omega

theorem chunks_flatten (w : Nat) :
    ∀ (fuel : Nat) (l : List Bool), l.length ≤ fuel →
      (chunksF w fuel l).flatten = l := by
  intro fuel
  induction fuel with
  | zero =>
    intro l h
    have : l = [] := List.length_eq_zero.mp (Nat.le_zero.mp h)
    subst this; rfl
  | succ fuel ih =>
    intro l hl
    cases l with
    | nil => rfl
    | cons b bs =>
      show ((b :: bs).take (w + 1) ::
        chunksF w fuel ((b :: bs).drop (w + 1))).flatten = b :: bs
      rw [List.flatten_cons, ih _ (by rw [List.length_drop]; simp only [List.length_cons] at hl ⊢; omega),
        List.take_append_drop]

theorem chunks_map_bitsToNat (w : Nat) (vs : List Nat)
    (hv : ∀ v ∈ vs, v < 2 ^ (w + 1)) :
    (chunks w (vs.flatMap (natToBits (w + 1)))).map bitsToNat = vs := by
  induction vs with
  | nil => rfl
  | cons v rest ih =>
    rw [List.flatMap_cons, chunks_append w _ _ (length_natToBits (w + 1) v),
      List.map_cons, bitsToNat_natToBits,
      Nat.mod_eq_of_lt (hv v (List.mem_cons_self v rest)),
      ih (fun x hx => hv x (List.mem_cons_of_mem v hx))]

theorem flatMap_natToBits_chunks (w : Nat) (l : List Bool)
    (h : (w + 1) ∣ l.length) :
    ((chunks w l).map bitsToNat).flatMap (natToBits (w + 1)) = l := by
  have hexact : ∀ (fuel : Nat) (l : List Bool), l.length ≤ fuel →
      (w + 1) ∣ l.length →
      ((chunksF w fuel l).map bitsToNat).flatMap (natToBits (w + 1)) = l := by
    intro fuel
    induction fuel with
    | zero =>
      intro l hl _
      have : l = [] := List.length_eq_zero.mp (Nat.le_zero.mp hl)
      subst this; rfl
    | succ fuel ih =>
      intro l hl hdvd
      cases l with
      | nil => rfl
      | cons b bs =>
        show (((b :: bs).take (w + 1) ::
          chunksF w fuel ((b :: bs).drop (w + 1))).map bitsToNat).flatMap
            (natToBits (w + 1)) = b :: bs
        have hge : w + 1 ≤ (b :: bs).length := by
          rcases hdvd with ⟨k, hk⟩
          cases k with
          | zero => simp at hk
          | succ k =>
            rw [hk]
            exact Nat.le_mul_of_pos_right _ (Nat.succ_pos k)
        have htake : ((b :: bs).take (w + 1)).length = w + 1 := by
          rw [List.length_take]
          omega
        rw [List.map_cons, List.flatMap_cons,
          natToBits_bitsToNat_of_length _ _ htake]
        have hdrop : ((b :: bs).drop (w + 1)).length = (b :: bs).length - (w + 1) :=
          List.length_drop _ _
        rw [ih (((b :: bs)).drop (w + 1))
          (by rw [hdrop]; simp only [List.length_cons] at hl ⊢; omega)
          (by rw [hdrop]; exact (Nat.dvd_sub' hdvd (Nat.dvd_refl _)))]
        exact List.take_append_drop _ _
  exact hexact l.length l (Nat.le_refl _) h

theorem convertBits8to5_mem_lt (bytes : List Nat) :
    ∀ g ∈ convertBits8to5 bytes, g < 32 := by
  intro g hg
  unfold convertBits8to5 at hg
  rcases List.mem_map.mp hg with ⟨c, hc, rfl⟩
  have hle := chunks_mem_length_le 4 _ _ (Nat.le_refl _) c hc
  calc bitsToNat c < 2 ^ c.length := bitsToNat_lt c
    _ ≤ 2 ^ 5 := Nat.pow_le_pow_right (by omega) (by omega)

/-! #### Polymod checksum lemmas -/

theorem xor_shiftRight (a b k : Nat) :
    (a ^^^ b) >>> k = (a >>> k) ^^^ (b >>> k) := by
  apply Nat.eq_of_testBit_eq
  intro i
  simp [Nat.testBit_shiftRight, Nat.testBit_xor]

theorem xor_shiftLeft (a b k : Nat) :
    (a ^^^ b) <<< k = (a <<< k) ^^^ (b <<< k) := by
  apply Nat.eq_of_testBit_eq
  intro i
  simp [Nat.testBit_shiftLeft, Nat.testBit_xor, Bool.and_xor_distrib_left]

theorem xor_left_comm (a b c : Nat) : a ^^^ (b ^^^ c) = b ^^^ (a ^^^ c) := by
  rw [← Nat.xor_assoc, Nat.xor_comm a b, Nat.xor_assoc]

theorem shift5_recombine (m k : Nat) :
    ((m >>> (k + 5)) <<< 5) ^^^ ((m >>> k) &&& 31) = m >>> k := by
  apply Nat.eq_of_testBit_eq
  intro i
  have h31 : (31 : Nat) = 2 ^ 5 - 1 := by norm_num
  simp only [Nat.testBit_xor, Nat.testBit_shiftLeft, Nat.testBit_shiftRight,
    Nat.testBit_and, h31, Nat.testBit_two_pow_sub_one]
  by_cases h : i < 5
  · have h2 : ¬ (i ≥ 5) := by omega
    simp [h, h2]
  · have hge : i ≥ 5 := by omega
    simp [h, hge]
    congr 1
    omega

theorem polyModStep_xor (t e d f : Nat) (he : e < 2 ^ 35) :
    polyModStep (t ^^^ e) (d ^^^ f) = (polyModStep t d ^^^ (e <<< 5)) ^^^ f := by
  have hM : (0x07ffffffff : Nat) = 2 ^ 35 - 1 := by norm_num
  have hc0 : (t ^^^ e) >>> 35 = t >>> 35 := by
    rw [xor_shiftRight]
    have he0 : e >>> 35 = 0 := by
      rw [Nat.shiftRight_eq_div_pow]
      exact Nat.div_eq_of_lt he
    rw [he0, Nat.xor_zero]
  have hand : (t ^^^ e) &&& 0x07ffffffff = (t &&& 0x07ffffffff) ^^^ e := by
    rw [Nat.and_xor_distrib_right]
    congr 1
    rw [hM]
    exact Nat.and_pow_two_sub_one_of_lt_two_pow he
  simp only [polyModStep]
  rw [hc0, hand, xor_shiftLeft]
  rcases Nat.mod_two_eq_zero_or_one (t >>> 35) with h1 | h1 <;>
    by_cases h2 : t >>> 35 &&& 2 ≠ 0 <;>
      by_cases h4 : t >>> 35 &&& 4 ≠ 0 <;>
        by_cases h8 : t >>> 35 &&& 8 ≠ 0 <;>
          by_cases h16 : t >>> 35 &&& 16 ≠ 0 <;>
            simp [Nat.and_one_is_mod, h1, h2, h4, h8, h16, Nat.xor_assoc,
              Nat.xor_comm, xor_left_comm]

theorem polyModStep_xor_right (t d f : Nat) :
    polyModStep t (d ^^^ f) = polyModStep t d ^^^ f := by
  have h := polyModStep_xor t 0 d f (by norm_num)
  simpa using h

theorem polyModStep_xor_left (t e d : Nat) (he : e < 2 ^ 35) :
    polyModStep (t ^^^ e) d = polyModStep t d ^^^ (e <<< 5) := by
  have h := polyModStep_xor t e d 0 he
  simpa using h

theorem shiftRight_lt_two_pow_35 (m k : Nat) (hm : m < 2 ^ 40) :
    m >>> (k + 5) < 2 ^ 35 := by
  rw [Nat.shiftRight_eq_div_pow]
  have h1 : m / 2 ^ (k + 5) ≤ m / 2 ^ 5 :=
    Nat.div_le_div_left (Nat.pow_le_pow_right (by omega) (by omega)) (by positivity)
  have h2 : m / 2 ^ 5 < 2 ^ 35 := by
    rw [Nat.div_lt_iff_lt_mul (by positivity)]
    calc m < 2 ^ 40 := hm
      _ ≤ 2 ^ 35 * 2 ^ 5 := by norm_num
  omega

theorem polyModStep_shift (t m k : Nat) (hm : m < 2 ^ 40) :
    polyModStep (t ^^^ (m >>> (k + 5))) ((m >>> k) &&& 31) =
      polyModStep t 0 ^^^ (m >>> k) := by
  have hp : m >>> (k + 5) < 2 ^ 35 := shiftRight_lt_two_pow_35 m k hm
  have hR : polyModStep t ((m >>> k) &&& 31) =
      polyModStep t 0 ^^^ ((m >>> k) &&& 31) := by
    have h := polyModStep_xor_right t 0 ((m >>> k) &&& 31)
    simpa using h
  calc polyModStep (t ^^^ (m >>> (k + 5))) ((m >>> k) &&& 31)
      = polyModStep t ((m >>> k) &&& 31) ^^^ ((m >>> (k + 5)) <<< 5) :=
        polyModStep_xor_left t _ _ hp
    _ = (polyModStep t 0 ^^^ ((m >>> k) &&& 31)) ^^^ ((m >>> (k + 5)) <<< 5) := by
        rw [hR]
    _ = polyModStep t 0 ^^^ (((m >>> (k + 5)) <<< 5) ^^^ ((m >>> k) &&& 31)) := by
        rw [Nat.xor_assoc, Nat.xor_comm ((m >>> k) &&& 31) _]
    _ = polyModStep t 0 ^^^ (m >>> k) := by rw [shift5_recombine]

theorem polyModStep_shift_explicit (t m k j : Nat) (hm : m < 2 ^ 40)
    (hj : j = k + 5) :
    polyModStep (t ^^^ (m >>> j)) ((m >>> k) &&& 31) =
      polyModStep t 0 ^^^ (m >>> k) := by
  subst hj
  exact polyModStep_shift t m k hm

theorem polyModStep_lt (c d : Nat) (hd : d < 2 ^ 40) :
    polyModStep c d < 2 ^ 40 := by
  have hM : (0x07ffffffff : Nat) = 2 ^ 35 - 1 := by norm_num
  have h1 : c &&& 0x07ffffffff < 2 ^ 35 := by
    rw [hM, Nat.and_pow_two_sub_one_eq_mod]
    exact Nat.mod_lt _ (by positivity)
  have h2 : (c &&& 0x07ffffffff) <<< 5 < 2 ^ 40 := by
    rw [Nat.shiftLeft_eq]
    calc (c &&& 0x07ffffffff) * 2 ^ 5 < 2 ^ 35 * 2 ^ 5 :=
        (Nat.mul_lt_mul_right (by norm_num)).mpr h1
      _ = 2 ^ 40 := by norm_num
  simp only [polyModStep]
  split <;> split <;> split <;> split <;> split <;>
    (repeat' apply Nat.xor_lt_two_pow) <;>
      first
        | exact h2
        | exact hd
        | norm_num

theorem foldl_polyModStep_lt (vs : List Nat) (hv : ∀ v ∈ vs, v < 2 ^ 40) :
    ∀ s, s < 2 ^ 40 → vs.foldl polyModStep s < 2 ^ 40 := by
  induction vs with
  | nil => intro s hs; exact hs
  | cons v rest ih =>
    intro s hs
    exact ih (fun x hx => hv x (List.mem_cons_of_mem v hx)) _
      (polyModStep_lt s v (hv v (List.mem_cons_self v rest)))

theorem foldl_checksumGroups (s m : Nat) (hm : m < 2 ^ 40) :
    List.foldl polyModStep s (checksumGroups m) =
      (List.foldl polyModStep s (List.replicate 8 0)) ^^^ m := by
  have h40 : m >>> 40 = 0 := by
    rw [Nat.shiftRight_eq_div_pow]
    exact Nat.div_eq_of_lt hm
  have e1 : polyModStep s ((m >>> 35) &&& 31) = polyModStep s 0 ^^^ (m >>> 35) := by
    have h := polyModStep_shift_explicit s m 35 40 hm (by norm_num)
    rwa [h40, Nat.xor_zero] at h
  have hrep : List.replicate 8 (0 : Nat) = [0, 0, 0, 0, 0, 0, 0, 0] := rfl
  rw [hrep]
  simp only [checksumGroups, List.foldl_cons, List.foldl_nil]
  rw [e1,
    polyModStep_shift_explicit (polyModStep s 0) m 30 35 hm (by norm_num),
    polyModStep_shift_explicit (polyModStep (polyModStep s 0) 0) m 25 30 hm
      (by norm_num),
    polyModStep_shift_explicit
      (polyModStep (polyModStep (polyModStep s 0) 0) 0) m 20 25 hm (by norm_num),
    polyModStep_shift_explicit
      (polyModStep (polyModStep (polyModStep (polyModStep s 0) 0) 0) 0) m 15 20
      hm (by norm_num),
    polyModStep_shift_explicit
      (polyModStep (polyModStep (polyModStep (polyModStep (polyModStep s 0) 0) 0) 0) 0)
      m 10 15 hm (by norm_num),
    polyModStep_shift_explicit
      (polyModStep (polyModStep (polyModStep (polyModStep (polyModStep (polyModStep s 0) 0) 0) 0) 0) 0)
      m 5 10 hm (by norm_num),
    polyModStep_shift_explicit
      (polyModStep (polyModStep (polyModStep (polyModStep (polyModStep (polyModStep (polyModStep s 0) 0) 0) 0) 0) 0) 0)
      m 0 5 hm (by norm_num),
    Nat.shiftRight_zero]

theorem polyMod_append_checksum (e : List Nat) (he : ∀ x ∈ e, x < 32) :
    PolyMod (e ++ checksumGroups (PolyMod (e ++ List.replicate 8 0))) = 0 := by
  have helt : ∀ x ∈ e, x < 2 ^ 40 := fun x hx => by
    have := he x hx
    omega
  have hs : e.foldl polyModStep 1 < 2 ^ 40 :=
    foldl_polyModStep_lt e helt 1 (by norm_num)
  have hz : (List.replicate 8 (0 : Nat)).foldl polyModStep
      (e.foldl polyModStep 1) < 2 ^ 40 := by
    refine foldl_polyModStep_lt _ ?_ _ hs
    intro x hx
    rw [List.eq_of_mem_replicate hx]
    norm_num
  have hunf : ∀ X : List Nat, PolyMod X = (X.foldl polyModStep 1) ^^^ 1 :=
    fun _ => rfl
  have hm : PolyMod (e ++ List.replicate 8 0) < 2 ^ 40 := by
    rw [hunf, List.foldl_append]
    exact Nat.xor_lt_two_pow hz (by norm_num)
  rw [hunf, List.foldl_append, foldl_checksumGroups _ _ hm, hunf,
    List.foldl_append, Nat.xor_cancel_left, Nat.xor_self]

theorem convert_roundtrip (bytes : List Nat) (hb : ∀ b ∈ bytes, b < 256) :
    convertBits5to8 (convertBits8to5 bytes) = some bytes := by
  unfold convertBits8to5 convertBits5to8
  have hlen8 : (bytes.flatMap (natToBits 8)).length = 8 * bytes.length :=
    length_flatMap_natToBits 8 bytes
  set bits8 := bytes.flatMap (natToBits 8) with hbits8
  set p := (5 - bits8.length % 5) % 5 with hp
  have hp5 : p < 5 := by omega
  have hdvd : 5 ∣ (bits8 ++ List.replicate p false).length := by
    rw [List.length_append, List.length_replicate]
    omega
  have hflat : (((chunks 4 (bits8 ++ List.replicate p false)).map
      bitsToNat).flatMap (natToBits 5)) = bits8 ++ List.replicate p false :=
    flatMap_natToBits_chunks 4 _ hdvd
  simp only [hflat]
  have hlenpad : (bits8 ++ List.replicate p false).length = 8 * bytes.length + p := by
    rw [List.length_append, List.length_replicate, hlen8]
  have hextra : (bits8 ++ List.replicate p false).length % 8 = p := by
    rw [hlenpad]
    omega
  rw [hextra]
  have hnot5 : ¬ (5 ≤ p) := by omega
  rw [if_neg hnot5]
  have hsub : (bits8 ++ List.replicate p false).length - p = bits8.length := by
    rw [hlenpad, hlen8]
    omega
  rw [hsub]
  have hdropped : (bits8 ++ List.replicate p false).drop bits8.length =
      List.replicate p false := List.drop_left _ _
  rw [hdropped]
  have hany : (List.replicate p false).any (fun b => b) = false := by
    simp
  rw [hany]
  rw [if_neg (by simp)]
  have htaken : (bits8 ++ List.replicate p false).take bits8.length = bits8 :=
    List.take_left _ _
  rw [htaken, hbits8, chunks_map_bitsToNat 7 bytes hb]

theorem invariant_and_mask_eq_zero :
    ∀ flag ∈ invariantFlagsList,
      flag &&& (0xffffffff ^^^ TEST_INVARIANT_FLAGS) = 0 := by decide

/-- C1: for a fixed (signature, pubkey, sighash) tuple verified once and
cached under `base_flags` (starting from an empty cache), a lookup after
flipping any one of the seventeen invariant flags still hits the cache, a
lookup after flipping the variant flag `SCRIPT_ENABLE_SCHNORR` misses, and
the invariant and variant flag sets are disjoint. -/
theorem sigcache_flag_invariants
    (cv : List Nat → List Nat → Nat → Bool)
    (sig pubkey : List Nat) (sighash baseFlags : Nat)
    (hbase : baseFlags < 2 ^ 32) (hcv : cv sig pubkey sighash = true) :
    (∀ flag ∈ invariantFlagsList,
      isCached (verifySignatureOp cv [] sig pubkey sighash baseFlags).2
        sig pubkey sighash (baseFlags ^^^ flag) = true) ∧
    isCached (verifySignatureOp cv [] sig pubkey sighash baseFlags).2
      sig pubkey sighash (baseFlags ^^^ SCRIPT_ENABLE_SCHNORR) = false ∧
    TEST_INVARIANT_FLAGS &&& TEST_VARIANT_FLAGS = 0 := by
  have hstate : (verifySignatureOp cv [] sig pubkey sighash baseFlags).2 =
      [computeEntry sig pubkey sighash baseFlags] := by
    simp [verifySignatureOp, hcv]
  refine ⟨?_, ?_, by decide⟩
  · intro flag hf
    rw [hstate]
    simp only [isCached, List.mem_singleton, decide_eq_true_eq]
    unfold computeEntry
    have : (baseFlags ^^^ flag) &&& (0xffffffff ^^^ TEST_INVARIANT_FLAGS) =
        baseFlags &&& (0xffffffff ^^^ TEST_INVARIANT_FLAGS) := by
      rw [Nat.and_xor_distrib_right, invariant_and_mask_eq_zero flag hf,
        Nat.xor_zero]
    rw [this]
  · rw [hstate]
    simp only [isCached, List.mem_singleton, decide_eq_false_iff_not]
    intro hcontra
    have hS : SCRIPT_ENABLE_SCHNORR &&& (0xffffffff ^^^ TEST_INVARIANT_FLAGS) =
        SCRIPT_ENABLE_SCHNORR := by decide
    have hfields := congrArg SigCacheEntry.variantFlags hcontra
    simp only [computeEntry] at hfields
    rw [Nat.and_xor_distrib_right, hS] at hfields
    have : SCRIPT_ENABLE_SCHNORR = 0 := by
      have h2 := congrArg
        (fun x => (baseFlags &&& (0xffffffff ^^^ TEST_INVARIANT_FLAGS)) ^^^ x)
        hfields
      simpa [← Nat.xor_assoc, Nat.xor_self] using h2
    exact absurd this (by decide)

/-- C1 witness: a concrete instantiation of `sigcache_flag_invariants`. -/
theorem sigcache_flag_invariants_witness :
    (∀ flag ∈ invariantFlagsList,
      isCached (verifySignatureOp (fun _ _ _ => true) [] [1] [2] 3 5).2
        [1] [2] 3 (5 ^^^ flag) = true) ∧
    isCached (verifySignatureOp (fun _ _ _ => true) [] [1] [2] 3 5).2
      [1] [2] 3 (5 ^^^ SCRIPT_ENABLE_SCHNORR) = false ∧
    TEST_INVARIANT_FLAGS &&& TEST_VARIANT_FLAGS = 0 :=
  sigcache_flag_invariants (fun _ _ _ => true) [1] [2] 3 5 (by decide) rfl

/-- C8: a cached verification whose underlying cryptographic verification
fails returns false, does not insert the tuple, and a subsequent cache-only
lookup of the same tuple misses. -/
theorem sigcache_failure_not_memoized
    (cv : List Nat → List Nat → Nat → Bool) (st : SigCacheState)
    (sig pubkey : List Nat) (sighash flags : Nat)
    (hcv : cv sig pubkey sighash = false)
    (hnot : isCached st sig pubkey sighash flags = false) :
    verifySignatureOp cv st sig pubkey sighash flags = (false, st) ∧
    isCached (verifySignatureOp cv st sig pubkey sighash flags).2
      sig pubkey sighash flags = false := by
  have hmem : computeEntry sig pubkey sighash flags ∉ st := by
    simpa [isCached] using hnot
  refine ⟨?_, ?_⟩ <;> simp [verifySignatureOp, hcv, hmem, isCached]

/-- C8 witness: a concrete instantiation of `sigcache_failure_not_memoized`. -/
theorem sigcache_failure_not_memoized_witness :
    verifySignatureOp (fun _ _ _ => false) [] [1] [2] 3 0 = (false, []) ∧
    isCached (verifySignatureOp (fun _ _ _ => false) [] [1] [2] 3 0).2
      [1] [2] 3 0 = false :=
  sigcache_failure_not_memoized (fun _ _ _ => false) [] [1] [2] 3 0 rfl (by decide)

/-- C10: any sequence of cache-only lookups and failed verifications leaves
the cache store unchanged, so a tuple never inserted by a successful
verification remains uncached after any number of such operations. -/
theorem sigcache_lookup_frame
    (cv : List Nat → List Nat → Nat → Bool) (st : SigCacheState)
    (ops : List SigCacheOp) (hfail : ∀ op ∈ ops, opFails cv op) :
    runOps cv st ops = st ∧
    (∀ sig pubkey sighash flags,
      isCached st sig pubkey sighash flags = false →
      isCached (runOps cv st ops) sig pubkey sighash flags = false) := by
  have hrun : runOps cv st ops = st := by
    induction ops with
    | nil => rfl
    | cons op rest ih =>
      have hop := hfail op (List.mem_cons_self op rest)
      have hrest : ∀ o ∈ rest, opFails cv o := fun o ho =>
        hfail o (List.mem_cons_of_mem op ho)
      cases op with
      | lookup sig pubkey sighash flags => exact ih hrest
      | verify sig pubkey sighash flags =>
        have hop' : cv sig pubkey sighash = false := hop
        have hv : (verifySignatureOp cv st sig pubkey sighash flags).2 = st := by
          by_cases hm : computeEntry sig pubkey sighash flags ∈ st <;>
            simp [verifySignatureOp, hop', hm]
        show runOps cv (verifySignatureOp cv st sig pubkey sighash flags).2 rest = st
        rw [hv]
        exact ih hrest
  exact ⟨hrun, fun sig pubkey sighash flags h => by rwa [hrun]⟩

/-- C10 witness: a concrete instantiation of `sigcache_lookup_frame`. -/
theorem sigcache_lookup_frame_witness :
    runOps (fun _ _ _ => false) []
      [SigCacheOp.lookup [1] [2] 3 0, SigCacheOp.verify [1] [2] 3 0] = [] ∧
    (∀ sig pubkey sighash flags,
      isCached [] sig pubkey sighash flags = false →
      isCached (runOps (fun _ _ _ => false) []
        [SigCacheOp.lookup [1] [2] 3 0, SigCacheOp.verify [1] [2] 3 0])
        sig pubkey sighash flags = false) :=
  sigcache_lookup_frame (fun _ _ _ => false) []
    [SigCacheOp.lookup [1] [2] 3 0, SigCacheOp.verify [1] [2] 3 0]
    (by intro op hop; fin_cases hop <;> simp [opFails])

theorem sizeClassOfLength_none_iff (n : Nat) :
    sizeClassOfLength n = none ↔ n ∉ validHashLengths := by
  unfold sizeClassOfLength validHashLengths
  split_ifs with h1 h2 h3 h4 h5 h6 h7 h8 <;> simp_all

/-- C4: PackCashAddrContent fails exactly when the hash length is not one of
the eight table lengths {20, 24, 28, 32, 40, 48, 56, 64}; in particular it
fails for every table length minus one and succeeds for every table
length. -/
theorem pack_length_invariant (content : CashAddrContent) :
    PackCashAddrContent content = none ↔
      content.hash.length ∉ validHashLengths := by
  unfold PackCashAddrContent
  cases hsc : sizeClassOfLength content.hash.length with
  | none =>
    simpa using (sizeClassOfLength_none_iff content.hash.length).mp hsc
  | some sc =>
    have : content.hash.length ∈ validHashLengths := by
      by_contra hmem
      rw [(sizeClassOfLength_none_iff content.hash.length).mpr hmem] at hsc
      exact Option.noConfusion hsc
    simp [this]

/-- C3: encoding hash F5BF48B397DAE70BE82B3CCA4793F8EB2B6CDAC9 under prefix
"devault" with the pubkey type yields exactly
"devault:qr6m7j9njldwwzlg9v7v53unlr4jkmx6eyecek538n", under prefix "dvtest"
with the script type exactly
"dvtest:pr6m7j9njldwwzlg9v7v53unlr4jkmx6ey55h922u9", and decoding each string
under its own prefix recovers the same type and hash bytes. -/
theorem concrete_test_vectors :
    EncodeCashAddrContent "devault".data ⟨0, testHash20⟩ =
      some "devault:qr6m7j9njldwwzlg9v7v53unlr4jkmx6eyecek538n".data ∧
    EncodeCashAddrContent "dvtest".data ⟨1, testHash20⟩ =
      some "dvtest:pr6m7j9njldwwzlg9v7v53unlr4jkmx6ey55h922u9".data ∧
    DecodeCashAddrContent
      "devault:qr6m7j9njldwwzlg9v7v53unlr4jkmx6eyecek538n".data
      "devault".data = ⟨0, testHash20⟩ ∧
    DecodeCashAddrContent
      "dvtest:pr6m7j9njldwwzlg9v7v53unlr4jkmx6ey55h922u9".data
      "dvtest".data = ⟨1, testHash20⟩ := by
  refine ⟨?_, ?_, ?_, ?_⟩ <;> decide

/-- C7: on the manually constructed 34-group payload carrying a 20-byte hash
(version byte 0), exactly 2 padding bits exist, and for every value `v` of
the final 5-bit group the encoded address decodes to no-destination exactly
when `v` is not a multiple of 4. -/
theorem padding_bits_canonical (v : Nat) (hv : v < 32) :
    (((0 : Nat) :: List.replicate 32 1 ++ [v]).flatMap (natToBits 5)).length % 8
      = 2 ∧
    (DecodeCashAddr
        (cashaddrEncode "devault".data ((0 : Nat) :: List.replicate 32 1 ++ [v]))
        "devault".data = CTxDestination.CNoDestination ↔ v % 4 ≠ 0) := by
  revert v
  decide

/-- C7 witness: the padding property at the concrete values 5 and 8. -/
theorem padding_bits_canonical_witness :
    ((DecodeCashAddr
        (cashaddrEncode "devault".data ((0 : Nat) :: List.replicate 32 1 ++ [5]))
        "devault".data = CTxDestination.CNoDestination ↔ (5 : Nat) % 4 ≠ 0) ∧
     (DecodeCashAddr
        (cashaddrEncode "devault".data ((0 : Nat) :: List.replicate 32 1 ++ [8]))
        "devault".data = CTxDestination.CNoDestination ↔ (8 : Nat) % 4 ≠ 0)) :=
  ⟨(padding_bits_canonical 5 (by decide)).2, (padding_bits_canonical 8 (by decide)).2⟩

/-- C2 counterexample: type 16 (a value in the claimed range {0..31}) does
not round-trip: its version byte has the top bit set, so decode yields the
empty content instead of the original. -/
theorem roundtrip_type16_fails :
    ¬ ((EncodeCashAddrContent "devault".data ⟨16, List.replicate 20 0⟩).map
        (fun a => DecodeCashAddrContent a "devault".data) =
      some ⟨16, List.replicate 20 0⟩) := by
  decide

/-- C5 counterexample: a checksum-valid address whose version byte is 0x10
(the bit the claim calls reserved) decodes to type 2 with a 20-byte hash, not
to the empty content. -/
theorem reserved_bit_0x10_decodes :
    DecodeCashAddrContent
      (cashaddrEncode "devault".data (convertBits8to5 (0x10 :: List.replicate 20 0)))
      "devault".data = ⟨2, List.replicate 20 0⟩ ∧
    ¬ (DecodeCashAddrContent
      (cashaddrEncode "devault".data (convertBits8to5 (0x10 :: List.replicate 20 0)))
      "devault".data = ⟨0, []⟩) := by
  refine ⟨by decide, by decide⟩

/-! #### Decode-of-encode stage lemmas -/

theorem checksumGroups_lt (m : Nat) : ∀ x ∈ checksumGroups m, x < 32 := by
  intro x hx
  simp only [checksumGroups, List.mem_cons, List.not_mem_nil, or_false] at hx
  have h31 : ∀ y : Nat, y &&& 0x1f < 32 := fun y =>
    Nat.lt_succ_of_le (Nat.and_le_right)
  rcases hx with rfl | rfl | rfl | rfl | rfl | rfl | rfl | rfl <;> exact h31 _

theorem expandPfx_lt (pfx : List Char) : ∀ x ∈ expandPfx pfx, x < 32 := by
  intro x hx
  unfold expandPfx at hx
  rcases List.mem_append.mp hx with hx | hx
  · rcases List.mem_map.mp hx with ⟨c, _, rfl⟩
    exact Nat.lt_succ_of_le (Nat.and_le_right)
  · simp only [List.mem_singleton] at hx
    omega

theorem charsetRev_charsetChar : ∀ g, g < 32 →
    charsetRev (charsetChar g) = some g := by decide

theorem charsetChar_not_upper : ∀ g, g < 32 →
    isUpperAZ (charsetChar g) = false := by decide

theorem charsetChar_ne_colon : ∀ g, g < 32 → charsetChar g ≠ ':' := by decide

theorem charsetChar_toLower : ∀ g, g < 32 →
    toLowerCh (charsetChar g) = charsetChar g := by decide

theorem mapM_charsetRev (vs : List Nat) (hv : ∀ g ∈ vs, g < 32) :
    (vs.map charsetChar).mapM charsetRev = some vs := by
  induction vs with
  | nil => rfl
  | cons v rest ih =>
    rw [List.map_cons, List.mapM_cons,
      charsetRev_charsetChar v (hv v (List.mem_cons_self v rest)),
      ih (fun g hg => hv g (List.mem_cons_of_mem v hg))]
    rfl

theorem splitLastColon_none (l : List Char) (h : ∀ c ∈ l, c ≠ ':') :
    splitLastColon l = none := by
  induction l with
  | nil => rfl
  | cons c cs ih =>
    rw [splitLastColon, ih (fun x hx => h x (List.mem_cons_of_mem c hx))]
    simp [h c (List.mem_cons_self c cs)]

theorem splitLastColon_split (p q : List Char) (hp : ∀ c ∈ p, c ≠ ':')
    (hq : ∀ c ∈ q, c ≠ ':') :
    splitLastColon (p ++ ':' :: q) = some (p, q) := by
  induction p with
  | nil =>
    rw [List.nil_append, splitLastColon, splitLastColon_none q hq]
    simp
  | cons c cs ih =>
    rw [List.cons_append, splitLastColon,
      ih (fun x hx => hp x (List.mem_cons_of_mem c hx))]

theorem map_toLower_id (l : List Char) (h : ∀ c ∈ l, isUpperAZ c = false) :
    l.map toLowerCh = l := by
  induction l with
  | nil => rfl
  | cons c cs ih =>
    rw [List.map_cons, ih (fun x hx => h x (List.mem_cons_of_mem c hx))]
    have : toLowerCh c = c := by
      unfold toLowerCh
      rw [h c (List.mem_cons_self c cs)]
      simp
    rw [this]

theorem goodPfx_no_upper (pfx : List Char) (h : goodPfx pfx) :
    ∀ c ∈ pfx, isUpperAZ c = false := by
  intro c hc
  have := h c hc
  simp only [isUpperAZ]
  have h58 : ¬ (65 ≤ c.toNat ∧ c.toNat ≤ 90) := by omega
  simp only [Bool.and_eq_false_iff]
  by_cases hc1 : 65 ≤ c.toNat
  · right
    simp only [decide_eq_false_iff_not]
    omega
  · left
    simp only [decide_eq_false_iff_not]
    omega

theorem goodPfx_no_colon (pfx : List Char) (h : goodPfx pfx) :
    ∀ c ∈ pfx, c ≠ ':' := by
  intro c hc heq
  have := h c hc
  subst heq
  simp at this

theorem encode_chars_not_upper (pfx : List Char) (h : goodPfx pfx)
    (vs : List Nat) (hv : ∀ g ∈ vs, g < 32) :
    (pfx ++ ':' :: vs.map charsetChar).any isUpperAZ = false := by
  rw [List.any_eq_false]
  intro c hc
  rcases List.mem_append.mp hc with hc | hc
  · simp [goodPfx_no_upper pfx h c hc]
  · rcases List.mem_cons.mp hc with rfl | hc
    · decide
    · rcases List.mem_map.mp hc with ⟨g, hg, rfl⟩
      simp [charsetChar_not_upper g (hv g hg)]

/-- Decoding an encoded (prefix, 5-bit payload) pair recovers the prefix and
the byte repacking of the payload. -/
theorem cashaddrDecode_encode (pfx : List Char) (hpfx : goodPfx pfx)
    (gs : List Nat) (hgs : ∀ g ∈ gs, g < 32) (dflt : List Char) :
    cashaddrDecode (cashaddrEncode pfx gs) dflt =
      (convertBits5to8 gs).map (fun bytes => (pfx, bytes)) := by
  have hcs : ∀ x ∈ createChecksum pfx gs, x < 32 := by
    unfold createChecksum
    exact checksumGroups_lt _
  have hvs : ∀ x ∈ gs ++ createChecksum pfx gs, x < 32 := by
    intro x hx
    rcases List.mem_append.mp hx with hx | hx
    · exact hgs x hx
    · exact hcs x hx
  have hupper : (cashaddrEncode pfx gs).any isUpperAZ = false :=
    encode_chars_not_upper pfx hpfx _ hvs
  unfold cashaddrDecode
  rw [hupper]
  simp only [Bool.false_and, Bool.false_eq_true, if_false]
  have hid : (cashaddrEncode pfx gs).map toLowerCh = cashaddrEncode pfx gs := by
    apply map_toLower_id
    intro c hc
    have := hupper
    rw [List.any_eq_false] at this
    simpa using this c hc
  rw [hid]
  unfold cashaddrEncode
  rw [splitLastColon_split pfx _ (goodPfx_no_colon pfx hpfx)
    (by
      intro c hc
      rcases List.mem_map.mp hc with ⟨g, hg, rfl⟩
      exact charsetChar_ne_colon g (hvs g hg))]
  simp only []
  rw [mapM_charsetRev _ hvs]
  simp only []
  have hlen : (gs ++ createChecksum pfx gs).length = gs.length + 8 := by
    rw [List.length_append]
    rfl
  rw [hlen]
  rw [if_neg (by omega)]
  have hpoly : PolyMod (expandPfx pfx ++ (gs ++ createChecksum pfx gs)) = 0 := by
    have he : ∀ x ∈ expandPfx pfx ++ gs, x < 32 := by
      intro x hx
      rcases List.mem_append.mp hx with hx | hx
      · exact expandPfx_lt pfx x hx
      · exact hgs x hx
    have h := polyMod_append_checksum (expandPfx pfx ++ gs) he
    rw [List.append_assoc] at h
    exact h
  rw [if_neg (by rw [hpoly]; exact fun hne => hne rfl)]
  have htake : (gs ++ createChecksum pfx gs).take (gs.length + 8 - 8) = gs := by
    rw [show gs.length + 8 - 8 = gs.length from by omega]
    exact List.take_left _ _
  rw [htake]
  cases hconv : convertBits5to8 gs <;> simp

/-! #### Content-level lemmas -/

theorem decodeContent_of_some (addr pfx : List Char) (version : Nat)
    (hash : List Nat)
    (h : cashaddrDecode addr pfx = some (pfx, version :: hash)) :
    DecodeCashAddrContent addr pfx =
      if version &&& 0x80 ≠ 0 then ⟨0, []⟩
      else if hash.length = hashSizeTable (version &&& 0x07) then
        ⟨(version >>> 3) &&& 0x1f, hash⟩
      else ⟨0, []⟩ := by
  unfold DecodeCashAddrContent
  rw [h]
  simp

theorem decodeContent_of_none (addr pfx : List Char)
    (h : cashaddrDecode addr pfx = none) :
    DecodeCashAddrContent addr pfx = ⟨0, []⟩ := by
  unfold DecodeCashAddrContent
  rw [h]

theorem decodeContent_of_mismatch (addr pfxA pfxB : List Char)
    (payload : List Nat) (h : cashaddrDecode addr pfxB = some (pfxA, payload))
    (hne : pfxA ≠ pfxB) :
    DecodeCashAddrContent addr pfxB = ⟨0, []⟩ := by
  unfold DecodeCashAddrContent
  rw [h]
  simp [hne]

theorem or_shiftRight (a b k : Nat) :
    (a ||| b) >>> k = (a >>> k) ||| (b >>> k) := by
  apply Nat.eq_of_testBit_eq
  intro i
  simp [Nat.testBit_shiftRight, Nat.testBit_or]

theorem and_two_pow_eq_zero_of_lt {v : Nat} {i : Nat} (h : v < 2 ^ i) :
    v &&& 2 ^ i = 0 := by
  rw [Nat.and_two_pow, Nat.testBit_lt_two_pow h]
  simp

/-- The version byte `(type <<< 3) ||| size_class` for type < 16 and size
class < 8: its value, reserved bit, type field and size field. -/
theorem version_byte_fields (t sc : Nat) (ht : t < 16) (hsc : sc < 8) :
    (((t <<< 3) ||| sc) &&& 0xff) = (t <<< 3) ||| sc ∧
    ((t <<< 3) ||| sc) < 128 ∧
    ((t <<< 3) ||| sc) &&& 0x80 = 0 ∧
    ((t <<< 3) ||| sc) &&& 0x07 = sc ∧
    ((((t <<< 3) ||| sc) >>> 3) &&& 0x1f) = t := by
  have hshift : t <<< 3 = t * 8 := by
    rw [Nat.shiftLeft_eq]
  have hlt : (t <<< 3) ||| sc < 128 := by
    have h1 : t <<< 3 < 2 ^ 7 := by rw [hshift]; omega
    have h2 : sc < 2 ^ 7 := by omega
    exact Nat.or_lt_two_pow h1 h2
  refine ⟨?_, hlt, ?_, ?_, ?_⟩
  · have : (0xff : Nat) = 2 ^ 8 - 1 := by norm_num
    rw [this]
    exact Nat.and_pow_two_sub_one_of_lt_two_pow (by omega)
  · have : (0x80 : Nat) = 2 ^ 7 := by norm_num
    rw [this]
    exact and_two_pow_eq_zero_of_lt hlt
  · have h7 : (0x07 : Nat) = 2 ^ 3 - 1 := by norm_num
    rw [Nat.and_distrib_right]
    have h1 : (t <<< 3) &&& 0x07 = 0 := by
      rw [h7, Nat.and_pow_two_sub_one_eq_mod, hshift]
      show t * 8 % 8 = 0
      exact Nat.mul_mod_left t 8
    have h2 : sc &&& 0x07 = sc := by
      rw [h7]
      exact Nat.and_pow_two_sub_one_of_lt_two_pow (by omega)
    rw [h1, h2]
    simp
  · rw [or_shiftRight]
    have h1 : (t <<< 3) >>> 3 = t := by
      rw [hshift, Nat.shiftRight_eq_div_pow]
      show t * 8 / 2 ^ 3 = t
      norm_num
    have h2 : sc >>> 3 = 0 := by
      rw [Nat.shiftRight_eq_div_pow]
      exact Nat.div_eq_of_lt (by omega)
    rw [h1, h2, Nat.or_zero]
    have : (0x1f : Nat) = 2 ^ 5 - 1 := by norm_num
    rw [this]
    exact Nat.and_pow_two_sub_one_of_lt_two_pow (by omega)

theorem supportedPfxs_good (pfx : List Char) (h : pfx ∈ supportedPfxs) :
    goodPfx pfx := by
  simp only [supportedPfxs, List.mem_cons, List.not_mem_nil, or_false] at h
  rcases h with rfl | rfl | rfl <;> unfold goodPfx <;> decide

/-- Decoding the encoding of a packed (version-byte, hash) pair under the
same prefix, for type < 16 and a hash of the exact table length, recovers
type and hash. -/
theorem decode_encode_packed (t sc : Nat) (ht : t < 16) (hsc : sc < 8)
    (hash : List Nat) (hb : ∀ b ∈ hash, b < 256)
    (hlen : hash.length = hashSizeTable sc)
    (pfx : List Char) (hpfx : goodPfx pfx) :
    DecodeCashAddrContent
      (cashaddrEncode pfx
        (convertBits8to5 ((((t <<< 3) ||| sc) &&& 0xff) :: hash)))
      pfx = ⟨t, hash⟩ := by
  obtain ⟨hmask, hlt, hbit, hsize, htype⟩ := version_byte_fields t sc ht hsc
  have hbytes : ∀ b ∈ (((t <<< 3) ||| sc) &&& 0xff) :: hash, b < 256 := by
    intro b hb'
    rcases List.mem_cons.mp hb' with rfl | hb'
    · rw [hmask]; omega
    · exact hb b hb'
  have hdec : cashaddrDecode
      (cashaddrEncode pfx
        (convertBits8to5 ((((t <<< 3) ||| sc) &&& 0xff) :: hash))) pfx =
      some (pfx, (((t <<< 3) ||| sc) &&& 0xff) :: hash) := by
    rw [cashaddrDecode_encode pfx hpfx _ (convertBits8to5_mem_lt _) pfx,
      convert_roundtrip _ hbytes]
    rfl
  rw [decodeContent_of_some _ _ _ _ hdec, hmask]
  rw [if_neg (by rw [hbit]; exact fun hne => hne rfl)]
  rw [hsize, if_pos hlen, htype]

/-- C2 (amended): for every type in {0..15}, every hash whose length is one
of {20, 24, 28, 32, 40, 48, 56, 64}, and every supported prefix, decoding
the encoding of the content under that prefix returns the original type and
hash.  (Types 16–31 pack into a version byte whose reserved top bit is set,
so their round trip yields the empty content; see the counterexample.) -/
theorem roundtrip_all_sizes (t : Nat) (ht : t < 16) (hash : List Nat)
    (hlen : hash.length ∈ validHashLengths) (hb : ∀ b ∈ hash, b < 256)
    (pfx : List Char) (hpfx : pfx ∈ supportedPfxs) :
    (EncodeCashAddrContent pfx ⟨t, hash⟩).map
      (fun addr => DecodeCashAddrContent addr pfx) = some ⟨t, hash⟩ := by
  have hgood : goodPfx pfx := supportedPfxs_good pfx hpfx
  have hex : ∃ sc, sc < 8 ∧ sizeClassOfLength hash.length = some sc ∧
      hash.length = hashSizeTable sc := by
    simp only [validHashLengths, List.mem_cons, List.not_mem_nil, or_false]
      at hlen
    rcases hlen with h | h | h | h | h | h | h | h
    · exact ⟨0, by omega, by rw [h]; rfl, by rw [h]; rfl⟩
    · exact ⟨1, by omega, by rw [h]; rfl, by rw [h]; rfl⟩
    · exact ⟨2, by omega, by rw [h]; rfl, by rw [h]; rfl⟩
    · exact ⟨3, by omega, by rw [h]; rfl, by rw [h]; rfl⟩
    · exact ⟨4, by omega, by rw [h]; rfl, by rw [h]; rfl⟩
    · exact ⟨5, by omega, by rw [h]; rfl, by rw [h]; rfl⟩
    · exact ⟨6, by omega, by rw [h]; rfl, by rw [h]; rfl⟩
    · exact ⟨7, by omega, by rw [h]; rfl, by rw [h]; rfl⟩
  rcases hex with ⟨sc, hsc8, hscEq, htab⟩
  unfold EncodeCashAddrContent PackCashAddrContent
  rw [hscEq]
  simp only [Option.map_some']
  rw [decode_encode_packed t sc ht hsc8 hash hb htab pfx hgood]

/-- C2 witness: the round trip at type 0, the concrete 20-byte test hash and
the main-network prefix. -/
theorem roundtrip_all_sizes_witness :
    (EncodeCashAddrContent "devault".data ⟨0, testHash20⟩).map
      (fun addr => DecodeCashAddrContent addr "devault".data) =
      some ⟨0, testHash20⟩ :=
  roundtrip_all_sizes 0 (by decide) testHash20 (by decide) (by decide)
    "devault".data (by decide)

/-- C5 (amended): for every version byte with the reserved top bit 0x80 set
(equivalently bit 0x10 of the leading 5-bit payload group, the bit the
`check_type` test manipulates), regardless of all other bits,
DecodeCashAddrContent of a checksum-valid address carrying that version byte
returns type 0 and an empty hash. -/
theorem reserved_bit_decodes_empty (version : Nat) (hv : version < 256)
    (hbit : version &&& 0x80 ≠ 0) (hash : List Nat)
    (hb : ∀ b ∈ hash, b < 256) (pfx : List Char)
    (hpfx : pfx ∈ supportedPfxs) :
    DecodeCashAddrContent
      (cashaddrEncode pfx (convertBits8to5 (version :: hash))) pfx =
      ⟨0, []⟩ := by
  have hgood : goodPfx pfx := supportedPfxs_good pfx hpfx
  have hbytes : ∀ b ∈ version :: hash, b < 256 := by
    intro b hb'
    rcases List.mem_cons.mp hb' with rfl | hb'
    · exact hv
    · exact hb b hb'
  have hdec : cashaddrDecode
      (cashaddrEncode pfx (convertBits8to5 (version :: hash))) pfx =
      some (pfx, version :: hash) := by
    rw [cashaddrDecode_encode pfx hgood _ (convertBits8to5_mem_lt _) pfx,
      convert_roundtrip _ hbytes]
    rfl
  rw [decodeContent_of_some _ _ _ _ hdec, if_pos hbit]

/-- C5 witness: version byte 0x90 (reserved bit plus other bits) with a
20-byte hash decodes to the empty content. -/
theorem reserved_bit_decodes_empty_witness :
    DecodeCashAddrContent
      (cashaddrEncode "devault".data
        (convertBits8to5 (0x90 :: List.replicate 20 0))) "devault".data =
      ⟨0, []⟩ :=
  reserved_bit_decodes_empty 0x90 (by decide) (by decide)
    (List.replicate 20 0) (by decide) "devault".data (by decide)

/-- C6: for every key-hash or script-hash destination over a 20-byte hash and
every ordered pair of distinct supported network prefixes, encoding under the
first prefix and decoding under the second yields the no-destination
variant. -/
theorem cross_network_no_destination (pfxA pfxB : List Char)
    (hA : pfxA ∈ supportedPfxs) (hB : pfxB ∈ supportedPfxs) (hne : pfxA ≠ pfxB)
    (hash : List Nat) (hlen : hash.length = 20) (hb : ∀ b ∈ hash, b < 256)
    (dst : CTxDestination)
    (hdst : dst = CKeyID hash ∨ dst = CScriptID hash) :
    ∃ addr, EncodeCashAddrDst dst pfxA = some addr ∧
      DecodeCashAddr addr pfxB = CNoDestination := by
  have hgoodA : goodPfx pfxA := supportedPfxs_good pfxA hA
  have main : ∀ t : Nat, t < 16 →
      ∃ addr, EncodeCashAddrContent pfxA ⟨t, hash⟩ = some addr ∧
        DecodeCashAddr addr pfxB = CNoDestination := by
    intro t ht
    have hscEq : sizeClassOfLength hash.length = some 0 := by rw [hlen]; rfl
    refine ⟨cashaddrEncode pfxA
      (convertBits8to5 ((((t <<< 3) ||| 0) &&& 0xff) :: hash)), ?_, ?_⟩
    · unfold EncodeCashAddrContent PackCashAddrContent
      rw [hscEq]
      simp only [Option.map_some']
    · obtain ⟨hmask, hlt, _, _, _⟩ := version_byte_fields t 0 ht (by omega)
      have hbytes : ∀ b ∈ (((t <<< 3) ||| 0) &&& 0xff) :: hash, b < 256 := by
        intro b hb'
        rcases List.mem_cons.mp hb' with rfl | hb'
        · rw [hmask]; omega
        · exact hb b hb'
      have hdec : cashaddrDecode
          (cashaddrEncode pfxA
            (convertBits8to5 ((((t <<< 3) ||| 0) &&& 0xff) :: hash))) pfxB =
          some (pfxA, (((t <<< 3) ||| 0) &&& 0xff) :: hash) := by
        rw [cashaddrDecode_encode pfxA hgoodA _ (convertBits8to5_mem_lt _) pfxB,
          convert_roundtrip _ hbytes]
        rfl
      unfold DecodeCashAddr
      rw [decodeContent_of_mismatch _ _ _ _ hdec hne]
      rfl
  rcases hdst with rfl | rfl
  · exact main 0 (by omega)
  · exact main 1 (by omega)

/-- C6 witness: a key destination encoded for the main network decodes to
no-destination under the testnet parameters. -/
theorem cross_network_no_destination_witness :
    ∃ addr, EncodeCashAddrDst (CKeyID testHash20) "devault".data = some addr ∧
      DecodeCashAddr addr "dvtest".data = CNoDestination :=
  cross_network_no_destination "devault".data "dvtest".data (by decide)
    (by decide) (by decide) testHash20 (by decide) (by decide)
    (CKeyID testHash20) (Or.inl rfl)

/-- C9: DecodeCashAddrContent is total on checksum-valid addresses: when the
repacked payload fails the padding check, or carries a hash whose length
contradicts the version byte's size class, it returns type 0 with an empty
hash rather than raising; when the length matches, a zero-type version byte
yields type 0 with a hash of exactly the table length. -/
theorem decode_size_mismatch_empty (pfx : List Char)
    (hpfx : pfx ∈ supportedPfxs) (gs : List Nat) (h32 : ∀ g ∈ gs, g < 32) :
    (convertBits5to8 gs = none →
      DecodeCashAddrContent (cashaddrEncode pfx gs) pfx = ⟨0, []⟩) ∧
    (∀ version hash, convertBits5to8 gs = some (version :: hash) →
      (version &&& 0x80 = 0 →
        hash.length ≠ hashSizeTable (version &&& 0x07) →
        DecodeCashAddrContent (cashaddrEncode pfx gs) pfx = ⟨0, []⟩) ∧
      (version < 8 → hash.length = hashSizeTable version →
        DecodeCashAddrContent (cashaddrEncode pfx gs) pfx = ⟨0, hash⟩)) := by
  have hgood : goodPfx pfx := supportedPfxs_good pfx hpfx
  constructor
  · intro hnone
    have hdec : cashaddrDecode (cashaddrEncode pfx gs) pfx = none := by
      rw [cashaddrDecode_encode pfx hgood gs h32 pfx, hnone]
      rfl
    exact decodeContent_of_none _ _ hdec
  · intro version hash hsome
    have hdec : cashaddrDecode (cashaddrEncode pfx gs) pfx =
        some (pfx, version :: hash) := by
      rw [cashaddrDecode_encode pfx hgood gs h32 pfx, hsome]
      rfl
    constructor
    · intro hbit hne
      rw [decodeContent_of_some _ _ _ _ hdec,
        if_neg (by rw [hbit]; exact fun h => h rfl), if_neg hne]
    · intro hv8 hlen
      have hbit : version &&& 0x80 = 0 := by
        have h : (0x80 : Nat) = 2 ^ 7 := by norm_num
        rw [h]
        exact and_two_pow_eq_zero_of_lt (by omega)
      have hand7 : version &&& 0x07 = version := by
        have h : (0x07 : Nat) = 2 ^ 3 - 1 := by norm_num
        rw [h]
        exact Nat.and_pow_two_sub_one_of_lt_two_pow (by omega)
      have htype : (version >>> 3) &&& 0x1f = 0 := by
        have hz : version >>> 3 = 0 := by
          rw [Nat.shiftRight_eq_div_pow]
          exact Nat.div_eq_of_lt (by omega)
        rw [hz]
        simp
      rw [decodeContent_of_some _ _ _ _ hdec,
        if_neg (by rw [hbit]; exact fun h => h rfl), hand7, if_pos hlen, htype]

/-- C9 witness: the zero-type 21-byte payload decodes to a 20-byte hash of
exactly the table length. -/
theorem decode_size_mismatch_empty_witness :
    DecodeCashAddrContent
      (cashaddrEncode "devault".data
        (convertBits8to5 (0 :: List.replicate 20 0))) "devault".data =
      ⟨0, List.replicate 20 0⟩ :=
  ((decode_size_mismatch_empty "devault".data (by decide) _
      (convertBits8to5_mem_lt _)).2 0 (List.replicate 20 0)
    (by decide)).2 (by decide) (by decide)

end DeVault
